import Mathlib

/-!
Verification of the pueue log follow & tail engine
(`src/pueue/src/client/commands/follow.rs` and
`src/pueue/src/client/commands/log/{mod,local,remote,json}.rs`).

Text is embedded as `List Char`; byte payloads as `List Nat`.
Timestamps (`Local::now()`) are wall-clock values with no semantic role;
printed lines are compared with their timestamp markers stripped, exactly
as the reconstruction properties of the spec do.
-/

namespace Pueue

/-- Model of Rust's `str::lines` (also `BufRead::lines` on valid UTF-8):
split at a line feed, strip a carriage return directly preceding a line
feed, the final line ending is optional, and a lone trailing carriage
return is kept. The accumulator holds the current line reversed. -/
def rustLinesAux (acc : List Char) : List Char → List (List Char)
  | [] => if acc = [] then [] else [acc.reverse]
  | c :: rest =>
    if c = '\n' then
      (if acc.head? = some '\r' then acc.tail else acc).reverse :: rustLinesAux [] rest
    else
      rustLinesAux (c :: acc) rest

/-- Rust's `text.lines()` as a list of lines (without their line endings). -/
def rustLines (l : List Char) : List (List Char) := rustLinesAux [] l

/-- Re-joining printed lines: each emitted line is printed by `println!`,
i.e. followed by a single line feed. -/
def emittedText (ls : List (List Char)) : List Char :=
  (ls.map (fun l => l ++ ['\n'])).flatten

/-- Model of `Vec<String>::join(sep)`. -/
def joinSep (sep : List Char) : List (List Char) → List Char
  | [] => []
  | [x] => x
  | x :: y :: rest => x ++ sep ++ joinSep sep (y :: rest)

/-- Model of `usize::to_string`. -/
def natChars (n : Nat) : List Char := (Nat.repr n).toList

/-!
## Local tail engine: the per-read timestamp annotator
(`follow_local_task_logs`, timestamps branch, follow.rs lines 224-260).
-/

/-- One poll iteration of the timestamps branch: read a chunk of new
bytes; an empty chunk leaves the carry untouched. Otherwise the carry is
prepended, the concatenation is split with `lines()`, and when the text
does not end in a line feed (and the line list is non-empty) the last
line is popped into the new carry. The remaining lines are printed, each
with a timestamp marker; the first component is those printed lines with
the marker stripped. -/
def tailAnnotateStep (carry chunk : List Char) : List (List Char) × List Char :=
  if chunk = [] then ([], carry)
  else
    let full := carry ++ chunk
    let ls := rustLines full
    if full.getLast? ≠ some '\n' ∧ ls ≠ [] then (ls.dropLast, ls.getLastD [])
    else (ls, [])

/-- Running the annotator over the successive poll reads, threading the
single persistent `incomplete_line` carry. Returns all emitted
(timestamp-stripped) lines and the final carry; the engine simply drops
the final carry when it terminates. -/
def tailAnnotateRun (carry : List Char) : List (List Char) → List (List Char) × List Char
  | [] => ([], carry)
  | c :: cs =>
    let s := tailAnnotateStep carry c
    let r := tailAnnotateRun s.2 cs
    (s.1 ++ r.1, r.2)

/-- The non-timestamps branch of the tail loop (`io::copy` of every chunk
straight to stdout): the output is the chunks, verbatim, in order. -/
def unannotatedRun (chunks : List (List Char)) : List Char := chunks.flatten

/-!
## Remote stream consumer (`remote_follow`, follow.rs lines 50-100).
-/

/-- A response received on the stream, as matched by `remote_follow`:
a `Stream` response carries a map of task id to freshly produced text. -/
inductive Response where
  | stream (logs : List (Nat × List Char))
  | close
  | failure (msg : List Char)
  | other
deriving DecidableEq

/-- How `remote_follow` ends: `closed` is the `Ok(())` return on `Close`
(process exit status 0), `failed` is `print_error` followed by
`std::process::exit(1)`, `exhausted` means the response sequence ended
without a terminal response. -/
inductive RemoteOutcome where
  | closed
  | failed (err : List Char)
  | exhausted
deriving DecidableEq

/-- What gets printed for one received text: with timestamps each
`lines()` line is printed (timestamp-stripped here) with a trailing line
feed; without timestamps the text is printed verbatim. -/
def printChunk (timestamps : Bool) (text : List Char) : List (List Char) :=
  if timestamps then (rustLines text).map (fun l => l ++ ['\n'])
  else [text]

/-- The receive loop of `remote_follow`: print every `Stream` chunk,
stop successfully on `Close`, stop with exit code 1 on `Failure`, log and
continue on any other response. -/
def remoteFollowRun (timestamps : Bool) : List Response → List (List Char) × RemoteOutcome
  | [] => ([], .exhausted)
  | .stream logs :: rest =>
    let out := (logs.map (fun p => printChunk timestamps p.2)).flatten
    let r := remoteFollowRun timestamps rest
    (out ++ r.1, r.2)
  | .close :: _ => ([], .closed)
  | .failure m :: _ => ([], .failed m)
  | .other :: rest => remoteFollowRun timestamps rest

/-- The process exit status a remote-follow outcome produces: `Close`
leads to a normal `Ok(())` return (status 0), `Failure` to
`std::process::exit(1)`; an exhausted sequence is decided elsewhere. -/
def remoteExitCode : RemoteOutcome → Option Nat
  | .closed => some 0
  | .failed _ => some 1
  | .exhausted => none

/-- Whether a response is terminal (`Close` or `Failure`). -/
def isTerminal : Response → Bool
  | .close => true
  | .failure _ => true
  | _ => false

/-- The chunk texts carried by one response. -/
def chunkTexts : Response → List (List Char)
  | .stream logs => logs.map (fun p => p.2)
  | _ => []

/-!
## Local tail loop and its termination
(`follow_local_task_logs`, follow.rs lines 204-293).
-/

/-- Result of `get_task` for the followed task: the task is gone from the
state, running, or present but no longer running. -/
inductive TaskQ where
  | missing
  | running
  | notRunning
deriving DecidableEq

/-- The environment a tailing run observes, indexed by loop iteration:
whether the log file still exists, the new bytes read by that iteration,
and the task-directory snapshot (consulted only when the loop queries). -/
structure TailEnv where
  fileExists : Nat → Bool
  chunk : Nat → List Char
  task : Nat → TaskQ

/-- How the tail loop ends, with the iteration index at which it ended:
`fileGone` is the clean return when the log file vanished, `taskRemoved`
is `std::process::exit(1)`, `taskFinished` is the clean return when the
task is no longer running. -/
inductive TailOutcome where
  | fileGone (iter : Nat)
  | taskRemoved (iter : Nat)
  | taskFinished (iter : Nat)
deriving DecidableEq

/-- The process exit status produced by each loop outcome: only a removed
task calls `std::process::exit(1)`; the other two return `Ok(())`. -/
def exitCodeOf : TailOutcome → Nat
  | .fileGone _ => 0
  | .taskRemoved _ => 1
  | .taskFinished _ => 0

/-- `log_check_interval`: the poll cadence in milliseconds. -/
def logCheckInterval : Nat := 250

/-- `task_check_interval = log_check_interval * 2`. -/
def taskCheckInterval : Nat := logCheckInterval * 2

/-- One run of the tail loop, fuelled. State per iteration: `lastCheck`
is the `last_check` counter, `iter` the iteration index, `acc` the bytes
copied to stdout so far, `queried` the iterations at which the task
directory was queried. Mirrors the loop body order: file-existence check,
read/print, then (every `task_check_interval`) the task query, then the
increment and sleep. -/
def tailLoop (env : TailEnv) : Nat → Nat → Nat → List Char → List Nat →
    Option (List Char × List Nat × TailOutcome)
  | 0, _, _, _, _ => none
  | fuel + 1, lastCheck, iter, acc, queried =>
    if env.fileExists iter = false then some (acc, queried, .fileGone iter)
    else
      let acc' := acc ++ env.chunk iter
      if lastCheck % taskCheckInterval = 0 then
        match env.task iter with
        | .missing => some (acc', queried ++ [iter], .taskRemoved iter)
        | .notRunning => some (acc', queried ++ [iter], .taskFinished iter)
        | .running =>
          tailLoop env fuel (lastCheck + logCheckInterval) (iter + 1) acc' (queried ++ [iter])
      else
        tailLoop env fuel (lastCheck + logCheckInterval) (iter + 1) acc' queried

/-- A tailing run from the initial state (`last_check = 0`). -/
def tailRun (env : TailEnv) (fuel : Nat) : Option (List Char × List Nat × TailOutcome) :=
  tailLoop env fuel 0 0 [] []

/-- The outcome the loop's status check produces at iteration `n` for a
given (non-running) task-directory answer. -/
def stopOutcome : TaskQ → Nat → TailOutcome
  | .missing, n => .taskRemoved n
  | .notRunning, n => .taskFinished n
  | .running, n => .taskFinished n

/-!
## Task auto-selection (`local_follow`, follow.rs lines 109-150).
-/

/-- The separator of the candidate-id list. -/
def sepComma : List Char := ", ".toList

/-- "There are no running tasks." -/
def msgNoRunning : List Char := "There are no running tasks.".toList

/-- The fixed part of the ambiguity error message. -/
def msgMultiple : List Char :=
  "Multiple tasks are running, please select one of the following: ".toList

/-- Resolve the task id to follow: an explicit id is taken as-is;
otherwise the running tasks are collected from the state (a map iterated
in ascending id order, modelled as an association list) and the loop
bails on zero or several candidates. -/
def localFollowResolve (taskId : Option Nat) (tasks : List (Nat × Bool)) :
    Except (List Char) Nat :=
  match taskId with
  | some id => .ok id
  | none =>
    let runningIds := (tasks.filter (fun t => t.2)).map (fun t => t.1)
    match runningIds with
    | [] => .error msgNoRunning
    | [id] => .ok id
    | _ => .error (msgMultiple ++ joinSep sepComma (runningIds.map natChars))

/-- The ids of running tasks in a state snapshot. -/
def runningIdsOf (tasks : List (Nat × Bool)) : List Nat :=
  (tasks.filter (fun t => t.2)).map (fun t => t.1)

/-!
## Finished-task log formatter
(`log/mod.rs`, `log/local.rs`, `log/remote.rs`, `log/json.rs`).
-/

/-- `determine_log_line_amount` (log/mod.rs lines 105-114). -/
def determineLogLineAmount (full : Bool) (lines : Option Nat) : Option Nat :=
  if full then none
  else
    match lines with
    | some l => some l
    | none => some 15

/-- Split after every line feed, keeping the line endings (the pieces
concatenate back to the input). -/
def splitInclusiveAux (acc : List Char) : List Char → List (List Char)
  | [] => if acc = [] then [] else [acc.reverse]
  | c :: rest =>
    if c = '\n' then (acc.reverse ++ ['\n']) :: splitInclusiveAux [] rest
    else splitInclusiveAux (c :: acc) rest

/-- Modelled from the spec: `seek_to_last_lines` lives in `pueue_lib`,
outside this tree. Per the spec it repositions the handle so that exactly
the trailing `n` newline-delimited lines remain to be read (or the whole
resource when it has at most `n` lines), returning whether nothing was
skipped. Lines here are the inclusive split pieces of the content. -/
def seekToLastLines (content : List Char) (n : Nat) : Bool × List Char :=
  let pieces := splitInclusiveAux [] content
  if pieces.length ≤ n then (true, content)
  else (false, (pieces.drop (pieces.length - n)).flatten)

/-- The windowing step of `follow_local_task_logs` (follow.rs lines
198-202): the seek is applied exactly when a line count was passed;
otherwise the handle stays at the start and the whole content streams. -/
def followLocalSetup (lines : Option Nat) (content : List Char) : List Char :=
  match lines with
  | none => content
  | some n => (seekToLastLines content n).2

/-- "(Pueue error) Failed to decompress remote log output: " -/
def msgDecompressFailed : List Char :=
  "(Pueue error) Failed to decompress remote log output: ".toList

/-- `add_timestamps_to_string` (log/json.rs lines 112-121): every
`lines()` line gets a timestamp marker and the results are joined with
line feeds (no trailing line feed). `ts` gives the marker text per line
index. -/
def addTimestampsToString (ts : Nat → List Char) (content : List Char) : List Char :=
  joinSep ['\n']
    ((rustLines content).enum.map (fun p => '[' :: ts p.1 ++ ']' :: ' ' :: p.2))

/-- `get_remote_log` (log/json.rs lines 93-109), parametrised by the
external snap frame decoder: an absent payload yields the empty string;
a decode error yields the placeholder message; otherwise the decoded
output, optionally annotated. -/
def getRemoteLog (decode : List Nat → Except (List Char) (List Char))
    (ts : Nat → List Char) (outputBytes : Option (List Nat)) (timestamps : Bool) :
    List Char :=
  match outputBytes with
  | none => []
  | some bytes =>
    match decode bytes with
    | .error e => msgDecompressFailed ++ e
    | .ok output =>
      if timestamps then addTimestampsToString ts output else output

/-- One print action of the finished-task formatter: `err` models
`eprintln!` (stderr), `out` models writes to stdout. -/
inductive OutEvent where
  | err (s : List Char)
  | out (s : List Char)
deriving DecidableEq

/-- " (last " -/
def msgLastA : List Char := " (last ".toList

/-- " lines)" -/
def msgLastB : List Char := " lines)".toList

/-- "Failed reading local log file: " -/
def msgSeekFailed : List Char := "Failed reading local log file: ".toList

/-- `print_local_file` (log/local.rs lines 45-86) together with
`print_with_timestamps`: nothing at all is printed unless the metadata is
readable and reports a non-zero length; then the seek is applied when a
line count was requested (a seek error prints a message and returns
before the header), the header line with its optional "(last N lines)"
hint goes to stderr, and the body goes to stdout, line-timestamped when
requested. `seek` abstracts the external `seek_to_last_lines`. -/
def printLocalFile (seek : List Char → Nat → Except (List Char) (Bool × List Char))
    (content : List Char) (metaOk : Bool) (lines : Option Nat)
    (header : List Char) (timestamps : Bool) (ts : Nat → List Char) : List OutEvent :=
  if metaOk = false then []
  else if content.length = 0 then []
  else
    let seekRes : Except (List Char) (Bool × List Char) :=
      match lines with
      | some n => seek content n
      | none => .ok (true, content)
    match seekRes with
    | .error e => [.err (msgSeekFailed ++ e)]
    | .ok res =>
      let lineInfo : List Char :=
        if res.1 = false then
          match lines with
          | some n => msgLastA ++ natChars n ++ msgLastB
          | none => []
        else []
      .err ('\n' :: header ++ lineInfo) ::
        (if timestamps then
          (rustLines res.2).enum.map (fun p => .out ('[' :: ts p.1 ++ ']' :: ' ' :: p.2 ++ ['\n']))
        else [.out res.2])

/-!
## JSON rendering (`print_log_json`, log/json.rs lines 28-58).
-/

/-- The task fields relevant here; `envs` is the environment-variable
map the JSON path clears. -/
structure Task where
  id : Nat
  command : List Char
  envs : List (List Char × List Char)
deriving DecidableEq

/-- One entry of the daemon's log response. -/
structure TaskLogResponse where
  task : Task
  output : Option (List Nat)
  outputComplete : Bool
deriving DecidableEq

/-- The serialized JSON entry: task metadata plus output text. -/
structure TaskLog where
  task : Task
  output : List Char
deriving DecidableEq

/-- `BTreeMap::insert` on an association list sorted by key. -/
def btreeInsert {α : Type} (k : Nat) (v : α) : List (Nat × α) → List (Nat × α)
  | [] => [(k, v)]
  | (k', v') :: rest =>
    if k < k' then (k, v) :: (k', v') :: rest
    else if k = k' then (k, v) :: rest
    else (k', v') :: btreeInsert k v rest

/-- `BTreeMap::remove_entry`: the value at the key and the rest of the
map, or `none` when absent. -/
def removeEntry {α : Type} (k : Nat) : List (Nat × α) → Option (α × List (Nat × α))
  | [] => none
  | (k', v') :: rest =>
    if k = k' then some (v', rest)
    else
      match removeEntry k rest with
      | none => none
      | some (v, m) => some (v, (k', v') :: m)

/-- The assembly loop of `print_log_json`: for each collected task, take
its output out of the log map (`remove_entry(...).unwrap()` — `none`
models the panic), clear `envs`, and insert the `TaskLog` into the
result map. -/
def printLogJsonGo : List (Nat × Task) → List (Nat × List Char) →
    List (Nat × TaskLog) → Option (List (Nat × TaskLog))
  | [], _, acc => some acc
  | (id, task) :: rest, taskLog, acc =>
    match removeEntry id taskLog with
    | none => none
    | some (output, taskLog') =>
      printLogJsonGo rest taskLog'
        (btreeInsert id ⟨{ task with envs := [] }, output⟩ acc)

/-- `print_log_json`: build the `tasks` and `task_log` maps from the
received messages (`logFor` abstracts the local/remote output fetch),
then assemble the JSON map. -/
def printLogJson (logFor : Nat → TaskLogResponse → List Char)
    (input : List (Nat × TaskLogResponse)) : Option (List (Nat × TaskLog)) :=
  let maps := input.foldl
    (fun (acc : List (Nat × Task) × List (Nat × List Char)) p =>
      (btreeInsert p.1 p.2.task acc.1, btreeInsert p.1 (logFor p.1 p.2) acc.2))
    ([], [])
  printLogJsonGo maps.1 maps.2 []

/-!
## Lemmas: `lines()` on carriage-return-free text
-/

/-- Structural companion of `rustLines`: split at line feeds, final line
ending optional. Agrees with `rustLines` when no carriage return occurs. -/
def splitNl : List Char → List (List Char)
  | [] => []
  | c :: rest =>
    if c = '\n' then [] :: splitNl rest
    else
      match splitNl rest with
      | [] => [[c]]
      | h :: t => (c :: h) :: t

/-- Gluing a pending reversed-accumulator head onto a split. -/
def glueHead (p : List Char) (ls : List (List Char)) : List (List Char) :=
  match ls with
  | [] => if p = [] then [] else [p]
  | h :: t => (p ++ h) :: t

theorem glueHead_nil (ls : List (List Char)) : glueHead [] ls = ls := by
  cases ls <;> simp [glueHead]

theorem rustLinesAux_eq_glue (l : List Char) : ∀ acc : List Char,
    '\r' ∉ acc → '\r' ∉ l → rustLinesAux acc l = glueHead acc.reverse (splitNl l) := by
  induction l with
  | nil =>
    intro acc hacc _
    simp only [rustLinesAux, splitNl, glueHead]
    by_cases h : acc = []
    · simp [h]
    · have : acc.reverse ≠ [] := by simpa using h
      simp [h, this]
  | cons c rest ih =>
    intro acc hacc hl
    have hrc : c ≠ '\r' := fun h => hl (h ▸ List.mem_cons_self c rest)
    have hrrest : '\r' ∉ rest := fun h => hl (List.mem_cons_of_mem c h)
    by_cases hc : c = '\n'
    · subst hc
      have hhead : acc.head? ≠ some '\r' := by
        intro h
        apply hacc
        cases acc with
        | nil => simp at h
        | cons a as =>
          simp only [List.head?_cons, Option.some_inj] at h
          exact h ▸ List.mem_cons_self a as
      rw [rustLinesAux, if_pos rfl, if_neg hhead, ih [] (by simp) hrrest,
        List.reverse_nil, glueHead_nil, splitNl, if_pos rfl]
      simp [glueHead]
    · rw [rustLinesAux, if_neg hc, ih (c :: acc) (by
        intro h
        rcases List.mem_cons.mp h with h | h
        · exact hrc h.symm
        · exact hacc h) hrrest]
      rw [splitNl, if_neg hc]
      cases hs : splitNl rest with
      | nil => simp [glueHead]
      | cons h t => simp [glueHead]

theorem rustLines_eq_splitNl (l : List Char) (hl : '\r' ∉ l) :
    rustLines l = splitNl l := by
  rw [rustLines, rustLinesAux_eq_glue l [] (by simp) hl]
  simp [glueHead_nil]

theorem splitNl_ne_nil (l : List Char) (h : l ≠ []) : splitNl l ≠ [] := by
  cases l with
  | nil => exact absurd rfl h
  | cons c rest =>
    rw [splitNl]
    by_cases hc : c = '\n'
    · simp [hc]
    · rw [if_neg hc]
      cases splitNl rest <;> simp

theorem emittedText_nil : emittedText [] = [] := rfl

theorem emittedText_cons (l : List Char) (ls : List (List Char)) :
    emittedText (l :: ls) = l ++ '\n' :: emittedText ls := by
  simp [emittedText]

/-- Content ending in a line feed is reconstructed exactly by printing
each split line followed by a line feed. -/
theorem splitNl_recon_newline (l : List Char) (hlast : l.getLast? = some '\n') :
    emittedText (splitNl l) = l := by
  induction l with
  | nil => simp at hlast
  | cons c rest ih =>
    cases hr : rest with
    | nil =>
      subst hr
      have hc : c = '\n' := by simpa using hlast
      subst hc
      simp [splitNl, emittedText]
    | cons d ds =>
      subst hr
      have hrest : d :: ds ≠ [] := by simp
      have hlast' : (d :: ds).getLast? = some '\n' := by simpa using hlast
      set rest := d :: ds with hrdef
      by_cases hc : c = '\n'
      · subst hc
        rw [splitNl, if_pos rfl, emittedText_cons, ih hlast']
        rfl
      · rw [splitNl, if_neg hc]
        cases hs : splitNl rest with
        | nil => exact absurd hs (splitNl_ne_nil rest hrest)
        | cons h t =>
          have := ih hlast'
          rw [hs, emittedText_cons] at this
          rw [emittedText_cons, ← this]
          simp

/-- Content that is non-empty and does not end in a line feed splits into
lines whose last entry is the unterminated fragment: printing all but the
last line and appending the fragment reconstructs the content, and the
fragment holds no line feed. -/
theorem splitNl_recon_fragment (l : List Char) (hne : l ≠ [])
    (hlast : l.getLast? ≠ some '\n') :
    ∃ init last, splitNl l = init ++ [last] ∧
      emittedText init ++ last = l ∧ '\n' ∉ last := by
  induction l with
  | nil => exact absurd rfl hne
  | cons c rest ih =>
    cases hr : rest with
    | nil =>
      subst hr
      have hc : c ≠ '\n' := by
        intro h
        exact hlast (by simp [h])
      exact ⟨[], [c], by simp [splitNl, hc], by simp [emittedText], by
        intro hmem
        rcases List.mem_singleton.mp hmem with h'
        exact hc h'.symm⟩
    | cons d ds =>
      subst hr
      have hrest : d :: ds ≠ [] := by simp
      have hlast' : (d :: ds).getLast? ≠ some '\n' := by simpa using hlast
      set rest := d :: ds with hrdef
      obtain ⟨init, last, hs, hrecon, hnofeed⟩ := ih hrest hlast'
      by_cases hc : c = '\n'
      · subst hc
        refine ⟨[] :: init, last, ?_, ?_, hnofeed⟩
        · rw [splitNl, if_pos rfl, hs]
          rfl
        · rw [emittedText_cons]
          simpa using hrecon
      · rw [splitNl, if_neg hc]
        cases hi : init with
        | nil =>
          subst hi
          simp only [List.nil_append] at hs
          simp only [emittedText_nil, List.nil_append] at hrecon
          refine ⟨[], c :: last, by rw [hs]; rfl, by simp [emittedText, hrecon], ?_⟩
          intro hmem
          rcases List.mem_cons.mp hmem with h' | h'
          · exact hc h'.symm
          · exact hnofeed h'
        | cons h t =>
          subst hi
          rw [hs]
          refine ⟨(c :: h) :: t, last, rfl, ?_, hnofeed⟩
          rw [emittedText_cons] at hrecon ⊢
          rw [← hrecon]
          simp

theorem emittedText_append (a b : List (List Char)) :
    emittedText (a ++ b) = emittedText a ++ emittedText b := by
  simp [emittedText]

/-!
## Lemmas: the tail annotator threads its carry without loss
-/

/-- One annotator step: the printed lines followed by the new carry
reproduce the old carry followed by the chunk, and the new carry holds
neither a line feed nor a carriage return. -/
theorem tailAnnotateStep_spec (carry chunk : List Char)
    (hcr : '\r' ∉ carry) (hch : '\r' ∉ chunk) (hnl : '\n' ∉ carry) :
    emittedText (tailAnnotateStep carry chunk).1 ++ (tailAnnotateStep carry chunk).2
        = carry ++ chunk ∧
      '\n' ∉ (tailAnnotateStep carry chunk).2 ∧
      '\r' ∉ (tailAnnotateStep carry chunk).2 := by
  by_cases hc : chunk = []
  · subst hc
    simp only [tailAnnotateStep, if_pos rfl]
    exact ⟨by simp [emittedText], hnl, hcr⟩
  · have hfullr : '\r' ∉ carry ++ chunk := by
      intro h
      rcases List.mem_append.mp h with h | h
      exacts [hcr h, hch h]
    have hfullne : carry ++ chunk ≠ [] := by
      intro h
      exact hc (List.append_eq_nil.mp h).2
    rw [tailAnnotateStep, if_neg hc]
    by_cases hlast : (carry ++ chunk).getLast? = some '\n'
    · rw [if_neg (by simp [hlast])]
      refine ⟨?_, by simp, by simp⟩
      simp only [List.append_nil]
      rw [rustLines_eq_splitNl _ hfullr, splitNl_recon_newline _ hlast]
    · obtain ⟨init, last, hs, hrecon, hnofeed⟩ :=
        splitNl_recon_fragment _ hfullne hlast
      have hls : rustLines (carry ++ chunk) = init ++ [last] := by
        rw [rustLines_eq_splitNl _ hfullr, hs]
      rw [if_pos ⟨hlast, by rw [hls]; simp⟩, hls,
        List.dropLast_concat, List.getLastD_concat]
      refine ⟨hrecon, hnofeed, ?_⟩
      intro h
      exact hfullr (hrecon ▸ List.mem_append_right (emittedText init) h)

/-- Running the annotator: all printed lines followed by the final carry
reproduce the initial carry followed by all chunks, and the final carry
holds no line feed. -/
theorem tailAnnotateRun_spec (chunks : List (List Char)) : ∀ carry : List Char,
    '\r' ∉ carry → (∀ c ∈ chunks, '\r' ∉ c) → '\n' ∉ carry →
    emittedText (tailAnnotateRun carry chunks).1 ++ (tailAnnotateRun carry chunks).2
        = carry ++ chunks.flatten ∧
      '\n' ∉ (tailAnnotateRun carry chunks).2 := by
  induction chunks with
  | nil =>
    intro carry _ _ h3
    exact ⟨by simp [tailAnnotateRun, emittedText], h3⟩
  | cons c cs ih =>
    intro carry h1 h2 h3
    obtain ⟨hstep, hstepn, hstepr⟩ :=
      tailAnnotateStep_spec carry c h1 (h2 c (List.mem_cons_self c cs)) h3
    obtain ⟨hrun, hrunn⟩ := ih (tailAnnotateStep carry c).2 hstepr
      (fun x hx => h2 x (List.mem_cons_of_mem _ hx)) hstepn
    refine ⟨?_, hrunn⟩
    show emittedText ((tailAnnotateStep carry c).1 ++
        (tailAnnotateRun (tailAnnotateStep carry c).2 cs).1) ++
        (tailAnnotateRun (tailAnnotateStep carry c).2 cs).2 = _
    rw [emittedText_append, List.append_assoc, hrun, ← List.append_assoc, hstep]
    simp

/-!
## C1: no-loss reconstruction of the local tail
-/

/-- C1 (counterexample): the claim fails as stated. Deliver the file
content "abc" — no trailing line break — in a single poll read and let
the engine terminate: the timestamps path prints nothing at all (the
whole text is parked in the carry and dropped at end-of-stream), while
the un-annotated path reproduces "abc". The two concatenations are not
equal, and the trailing fragment held in the carry is never emitted.
A CRLF input also breaks reconstruction: "a\r\n" prints back as "a\n",
because `lines()` strips the carriage return. -/
theorem c1_counterexample :
    emittedText (tailAnnotateRun [] [['a', 'b', 'c']]).1 = [] ∧
      unannotatedRun [['a', 'b', 'c']] = ['a', 'b', 'c'] ∧
      emittedText (tailAnnotateRun [] [['a', 'b', 'c']]).1 ≠
        unannotatedRun [['a', 'b', 'c']] ∧
      emittedText (tailAnnotateRun [] [['a', '\r', '\n']]).1 = ['a', '\n'] ∧
      emittedText (tailAnnotateRun [] [['a', '\r', '\n']]).1 ≠
        unannotatedRun [['a', '\r', '\n']] := by
  decide

/-- C1 (amended): for log content that ends in a line feed and holds no
carriage return, reconstruction is lossless for every chunk placement:
the concatenated annotated output with timestamp markers stripped equals
the un-annotated output, and both equal the original content. (A trailing
fragment without a line break is *not* emitted at end-of-stream: the
engine drops the carry when it terminates, as the counterexample shows.) -/
theorem c1_tail_reconstruction (content : List Char) (chunks : List (List Char))
    (hj : chunks.flatten = content)
    (hnl : content.getLast? = some '\n')
    (hcr : '\r' ∉ content) :
    emittedText (tailAnnotateRun [] chunks).1 = content ∧
      unannotatedRun chunks = content := by
  have hchunks : ∀ c ∈ chunks, '\r' ∉ c := by
    intro c hcm hmem
    exact hcr (hj ▸ List.mem_flatten_of_mem hcm hmem)
  obtain ⟨hrec, hnf⟩ := tailAnnotateRun_spec chunks [] (by simp) hchunks (by simp)
  rw [List.nil_append, hj] at hrec
  rcases Decidable.em ((tailAnnotateRun [] chunks).2 = []) with h | h
  · rw [h, List.append_nil] at hrec
    exact ⟨hrec, hj⟩
  · exfalso
    have hcl : (tailAnnotateRun [] chunks).2.getLast? = some '\n' := by
      have := hrec ▸ hnl
      rwa [List.getLast?_append, Option.or_of_isSome (by
        cases hx : (tailAnnotateRun [] chunks).2.getLast? with
        | none => exact absurd (List.getLast?_eq_none_iff.mp hx) h
        | some _ => rfl)] at this
    exact hnf (List.mem_of_getLast?_eq_some hcl)

/-- C1 (witness): content "ab\n" split mid-line into "a" and "b\n". -/
theorem c1_witness :
    emittedText (tailAnnotateRun [] [['a'], ['b', '\n']]).1 = ['a', 'b', '\n'] ∧
      unannotatedRun [['a'], ['b', '\n']] = ['a', 'b', '\n'] :=
  c1_tail_reconstruction ['a', 'b', '\n'] [['a'], ['b', '\n']]
    (by decide) (by decide) (by decide)

/-!
## C2: remote stream consumer dispatch
-/

theorem flatten_map_singleton {α β : Type} (f : α → β) (l : List α) :
    (l.map (fun x => [f x])).flatten = l.map f := by
  induction l with
  | nil => rfl
  | cons a t ih => simp [ih]

/-- C2: the remote stream consumer prints every `Chunk` text exactly once
and in receipt order — the printed output is exactly the concatenation of
the chunk texts of the responses preceding the first terminal response,
so nothing received after a terminal response is ever printed; `Close`
terminates with a successful return (exit status 0), `Failure` prints the
error and exits with status 1, and any other response kind is skipped
without terminating. -/
theorem c2_remote_dispatch (rs : List Response) :
    (remoteFollowRun false rs).1 =
      ((rs.takeWhile (fun r => !isTerminal r)).map chunkTexts).flatten ∧
      (remoteFollowRun false rs).2 =
        (match (rs.dropWhile (fun r => !isTerminal r)).head? with
          | some .close => .closed
          | some (.failure m) => .failed m
          | _ => .exhausted) ∧
      remoteExitCode (remoteFollowRun false rs).2 =
        (match (rs.dropWhile (fun r => !isTerminal r)).head? with
          | some .close => some 0
          | some (.failure _) => some 1
          | _ => none) := by
  induction rs with
  | nil => exact ⟨rfl, rfl, rfl⟩
  | cons r rest ih =>
    obtain ⟨ih1, ih2, ih3⟩ := ih
    cases r with
    | stream logs =>
      refine ⟨?_, ?_, ?_⟩
      · show (logs.map (fun p => printChunk false p.2)).flatten ++
          (remoteFollowRun false rest).1 = _
        rw [ih1]
        simp [printChunk, isTerminal, chunkTexts, List.takeWhile_cons,
          flatten_map_singleton]
      · show (remoteFollowRun false rest).2 = _
        rw [ih2]
        simp [isTerminal, List.dropWhile_cons]
      · show remoteExitCode (remoteFollowRun false rest).2 = _
        rw [ih3]
        simp [isTerminal, List.dropWhile_cons]
    | close =>
      exact ⟨by simp [remoteFollowRun, isTerminal, List.takeWhile_cons],
        by simp [remoteFollowRun, isTerminal, List.dropWhile_cons],
        by simp [remoteFollowRun, remoteExitCode, isTerminal, List.dropWhile_cons]⟩
    | failure m =>
      exact ⟨by simp [remoteFollowRun, isTerminal, List.takeWhile_cons],
        by simp [remoteFollowRun, isTerminal, List.dropWhile_cons],
        by simp [remoteFollowRun, remoteExitCode, isTerminal, List.dropWhile_cons]⟩
    | other =>
      refine ⟨?_, ?_, ?_⟩
      · show (remoteFollowRun false rest).1 = _
        rw [ih1]
        simp [isTerminal, chunkTexts, List.takeWhile_cons]
      · show (remoteFollowRun false rest).2 = _
        rw [ih2]
        simp [isTerminal, List.dropWhile_cons]
      · show remoteExitCode (remoteFollowRun false rest).2 = _
        rw [ih3]
        simp [isTerminal, List.dropWhile_cons]

/-!
## Lemmas: termination of the local tail loop
-/

/-- Workhorse: with the log file always present and a task that runs up
to tick `k` and then answers `q` (not running, or missing) forever,
the loop started at iteration `i` (with the `last_check` counter in
step) stops at the first even iteration at or after `max i k`, having
read and printed every chunk up to and including that iteration and
having queried the task directory at exactly the even iterations it
passed. -/
theorem tailLoop_stops (env : TailEnv) (k : Nat) (q : TaskQ) (hq : q ≠ .running)
    (hfile : ∀ j, env.fileExists j = true)
    (htask : ∀ j, env.task j = if j < k then .running else q) :
    ∀ fuel i acc qs, max i k + (max i k) % 2 < i + fuel →
      tailLoop env fuel (logCheckInterval * i) i acc qs =
        some (acc ++
            ((List.range' i (max i k + (max i k) % 2 + 1 - i)).map env.chunk).flatten,
          qs ++ (List.range' i (max i k + (max i k) % 2 + 1 - i)).filter
            (fun j => j % 2 = 0),
          stopOutcome q (max i k + (max i k) % 2)) := by
  intro fuel
  induction fuel with
  | zero =>
    intro i acc qs h
    exact absurd h (by omega)
  | succ fuel ih =>
    intro i acc qs h
    have hstep : max i k + (max i k) % 2 + 1 - i = (max i k + (max i k) % 2 - i) + 1 := by
      omega
    rw [tailLoop, hfile i, if_neg (by decide)]
    have hcond : logCheckInterval * i % taskCheckInterval = 0 ↔ i % 2 = 0 := by
      simp only [logCheckInterval, taskCheckInterval]
      omega
    by_cases heven : i % 2 = 0
    · rw [if_pos (hcond.mpr heven), htask i]
      by_cases hik : i < k
      · rw [if_pos hik]
        show tailLoop env fuel (logCheckInterval * i + logCheckInterval) (i + 1)
            (acc ++ env.chunk i) (qs ++ [i]) = _
        have hmax : max i k = k := Nat.max_eq_right (Nat.le_of_lt hik)
        have hmax' : max (i + 1) k = k := Nat.max_eq_right hik
        rw [← Nat.mul_succ, ih (i + 1) (acc ++ env.chunk i) (qs ++ [i]) (by omega)]
        rw [hmax, hmax'] at *
        have hlen : k + k % 2 + 1 - i = (k + k % 2 + 1 - (i + 1)) + 1 := by omega
        rw [hlen, List.range'_succ]
        simp only [List.map_cons, List.flatten_cons, List.filter_cons, heven,
          decide_True, List.append_assoc, List.cons_append, List.nil_append]
        rfl
      · have hmax : max i k = i := Nat.max_eq_left (Nat.le_of_not_lt hik)
        have hstop : max i k + (max i k) % 2 = i := by omega
        rw [if_neg hik, hstop]
        have hlen : i + 1 - i = 1 := by omega
        rw [hlen, List.range'_one]
        cases q with
        | missing => simp [stopOutcome, heven]
        | notRunning => simp [stopOutcome, heven]
        | running => exact absurd rfl hq
    · rw [if_neg (fun hx => heven (hcond.mp hx))]
      show tailLoop env fuel (logCheckInterval * i + logCheckInterval) (i + 1)
          (acc ++ env.chunk i) qs = _
      have hsame : max (i + 1) k + (max (i + 1) k) % 2 = max i k + (max i k) % 2 := by
        omega
      rw [← Nat.mul_succ, ih (i + 1) (acc ++ env.chunk i) qs (by omega), hsame]
      have hlen : max i k + (max i k) % 2 + 1 - i
          = (max i k + (max i k) % 2 + 1 - (i + 1)) + 1 := by omega
      rw [hlen, List.range'_succ]
      simp only [List.map_cons, List.flatten_cons, List.filter_cons, heven,
        decide_False, List.append_assoc]
      rfl

/-- With the log file present up to (but not at) iteration `m` and the
task always running, the loop stops at iteration `m` with a clean
`fileGone`: the file check opens each iteration, so the bytes read are
exactly the chunks of iterations before `m`. -/
theorem tailLoop_fileGone (env : TailEnv) (m : Nat)
    (hfile : ∀ j, env.fileExists j = decide (j < m))
    (htask : ∀ j, env.task j = .running) :
    ∀ fuel i acc qs, m < i + fuel → i ≤ m →
      tailLoop env fuel (logCheckInterval * i) i acc qs =
        some (acc ++ ((List.range' i (m - i)).map env.chunk).flatten,
          qs ++ (List.range' i (m - i)).filter (fun j => j % 2 = 0),
          .fileGone m) := by
  intro fuel
  induction fuel with
  | zero =>
    intro i acc qs h hm
    exact absurd h (by omega)
  | succ fuel ih =>
    intro i acc qs h hm
    rcases Nat.lt_or_ge i m with hlt | hge
    · rw [tailLoop, hfile i, if_neg (by simp [hlt])]
      have hcond : logCheckInterval * i % taskCheckInterval = 0 ↔ i % 2 = 0 := by
        simp only [logCheckInterval, taskCheckInterval]
        omega
      have hlen : m - i = (m - (i + 1)) + 1 := by omega
      by_cases heven : i % 2 = 0
      · rw [if_pos (hcond.mpr heven), htask i]
        show tailLoop env fuel (logCheckInterval * i + logCheckInterval) (i + 1)
            (acc ++ env.chunk i) (qs ++ [i]) = _
        rw [← Nat.mul_succ, ih (i + 1) (acc ++ env.chunk i) (qs ++ [i])
          (by omega) (by omega)]
        rw [hlen, List.range'_succ]
        simp only [List.map_cons, List.flatten_cons, List.filter_cons, heven,
          decide_True, List.append_assoc, List.cons_append, List.nil_append]
        rfl
      · rw [if_neg (fun hx => heven (hcond.mp hx))]
        show tailLoop env fuel (logCheckInterval * i + logCheckInterval) (i + 1)
            (acc ++ env.chunk i) qs = _
        rw [← Nat.mul_succ, ih (i + 1) (acc ++ env.chunk i) qs (by omega) (by omega)]
        rw [hlen, List.range'_succ]
        simp only [List.map_cons, List.flatten_cons, List.filter_cons, heven,
          decide_False, List.append_assoc]
        rfl
    · have him : i = m := by omega
      subst him
      rw [tailLoop, hfile i, if_pos (by simp)]
      simp

/-!
## C3: status-check cadence and cooperative termination
-/

/-- C3: with the file always present and the task directory reporting
the task running before tick `k` and non-running from tick `k` on, the
tail loop stops at iteration `k + k % 2` — within at most two poll ticks
(indeed at most one past `k`) — after reading and printing that final
iteration's chunk (trailing output is not lost), and the iterations that
queried the task directory are exactly the even ones, i.e. every second
loop iteration starting with the first. With the same schedule but the
task removed at tick `k`, the loop ends in `taskRemoved`, whose process
exit status is 1. -/
theorem c3_status_cadence (env env' : TailEnv) (k fuel : Nat)
    (hfile : ∀ j, env.fileExists j = true)
    (htask : ∀ j, env.task j = if j < k then .running else .notRunning)
    (hfile' : ∀ j, env'.fileExists j = true)
    (htask' : ∀ j, env'.task j = if j < k then .running else .missing)
    (hfuel : k + 2 ≤ fuel) :
    tailRun env fuel = some
        (((List.range' 0 (k + k % 2 + 1)).map env.chunk).flatten,
          (List.range' 0 (k + k % 2 + 1)).filter (fun j => j % 2 = 0),
          .taskFinished (k + k % 2)) ∧
      k + k % 2 ≤ k + 1 ∧
      tailRun env' fuel = some
        (((List.range' 0 (k + k % 2 + 1)).map env'.chunk).flatten,
          (List.range' 0 (k + k % 2 + 1)).filter (fun j => j % 2 = 0),
          .taskRemoved (k + k % 2)) ∧
      exitCodeOf (.taskRemoved (k + k % 2)) = 1 ∧
      exitCodeOf (.taskFinished (k + k % 2)) = 0 := by
  have hmax : max 0 k = k := Nat.max_eq_right (Nat.zero_le k)
  refine ⟨?_, by omega, ?_, rfl, rfl⟩
  · have := tailLoop_stops env k .notRunning (by decide) hfile htask fuel 0 [] []
      (by omega)
    rw [Nat.mul_zero] at this
    rw [tailRun, this, hmax]
    simp [stopOutcome]
  · have := tailLoop_stops env' k .missing (by decide) hfile' htask' fuel 0 [] []
      (by omega)
    rw [Nat.mul_zero] at this
    rw [tailRun, this, hmax]
    simp [stopOutcome]

/-- C3 (witness): task runs for one tick, then reports non-running
(resp. removed); the loop stops at iteration 2 having printed the three
chunks read and having queried at iterations 0 and 2. -/
theorem c3_witness :
    tailRun ⟨fun _ => true, fun _ => ['x'],
        fun j => if j < 1 then .running else .notRunning⟩ 4 =
      some (['x', 'x', 'x'], [0, 2], .taskFinished 2) ∧
      (1 : Nat) + 1 % 2 ≤ 2 ∧
      tailRun ⟨fun _ => true, fun _ => ['x'],
          fun j => if j < 1 then .running else .missing⟩ 4 =
        some (['x', 'x', 'x'], [0, 2], .taskRemoved 2) ∧
      exitCodeOf (.taskRemoved (1 + 1 % 2)) = 1 ∧
      exitCodeOf (.taskFinished (1 + 1 % 2)) = 0 := by
  have h := c3_status_cadence
    ⟨fun _ => true, fun _ => ['x'], fun j => if j < 1 then .running else .notRunning⟩
    ⟨fun _ => true, fun _ => ['x'], fun j => if j < 1 then .running else .missing⟩
    1 4 (fun _ => rfl) (fun _ => rfl) (fun _ => rfl) (fun _ => rfl) (by omega)
  exact h

/-!
## C8: exit-status distinction during a local follow
-/

/-- C8: a log file that disappears at iteration `m` mid-follow (task
still running) makes the loop terminate cleanly in `fileGone` — process
exit status 0 — after a goodbye message, whereas a task confirmed
missing from the task directory ends the loop in `taskRemoved`, i.e.
`std::process::exit(1)`, a non-zero exit status. -/
theorem c8_exit_distinction (env env' : TailEnv) (m k fuel : Nat)
    (hfile : ∀ j, env.fileExists j = decide (j < m))
    (htask : ∀ j, env.task j = .running)
    (hmf : m < fuel)
    (hfile' : ∀ j, env'.fileExists j = true)
    (htask' : ∀ j, env'.task j = if j < k then .running else .missing)
    (hfuel' : k + 2 ≤ fuel) :
    tailRun env fuel = some
        (((List.range' 0 m).map env.chunk).flatten,
          (List.range' 0 m).filter (fun j => j % 2 = 0),
          .fileGone m) ∧
      exitCodeOf (.fileGone m) = 0 ∧
      tailRun env' fuel = some
        (((List.range' 0 (k + k % 2 + 1)).map env'.chunk).flatten,
          (List.range' 0 (k + k % 2 + 1)).filter (fun j => j % 2 = 0),
          .taskRemoved (k + k % 2)) ∧
      exitCodeOf (.taskRemoved (k + k % 2)) = 1 := by
  refine ⟨?_, rfl, ?_, rfl⟩
  · have := tailLoop_fileGone env m hfile htask fuel 0 [] [] (by omega) (Nat.zero_le m)
    rw [Nat.mul_zero] at this
    rw [tailRun, this, Nat.sub_zero]
    simp
  · have := tailLoop_stops env' k .missing (by decide) hfile' htask' fuel 0 [] []
      (by omega)
    rw [Nat.mul_zero] at this
    rw [tailRun, this, Nat.max_eq_right (Nat.zero_le k)]
    simp [stopOutcome]

/-- C8 (witness): the file vanishes at iteration 1 of one run; the task
vanishes at tick 1 of the other. -/
theorem c8_witness :
    tailRun ⟨fun j => decide (j < 1), fun _ => ['y'], fun _ => .running⟩ 4 =
      some (['y'], [0], .fileGone 1) ∧
      exitCodeOf (.fileGone 1) = 0 ∧
      tailRun ⟨fun _ => true, fun _ => ['y'],
          fun j => if j < 1 then .running else .missing⟩ 4 =
        some (['y', 'y', 'y'], [0, 2], .taskRemoved 2) ∧
      exitCodeOf (.taskRemoved (1 + 1 % 2)) = 1 := by
  have h := c8_exit_distinction
    ⟨fun j => decide (j < 1), fun _ => ['y'], fun _ => .running⟩
    ⟨fun _ => true, fun _ => ['y'], fun j => if j < 1 then .running else .missing⟩
    1 1 4 (fun _ => rfl) (fun _ => rfl) (by omega) (fun _ => rfl) (fun _ => rfl)
    (by omega)
  exact h

/-!
## C4: carry-state inconsistency between the local and remote paths
-/

theorem splitNl_no_newline (l : List Char) (hn : '\n' ∉ l) (hne : l ≠ []) :
    splitNl l = [l] := by
  induction l with
  | nil => exact absurd rfl hne
  | cons c rest ih =>
    have hc : c ≠ '\n' := fun h => hn (h ▸ List.mem_cons_self c rest)
    have hnr : '\n' ∉ rest := fun h => hn (List.mem_cons_of_mem c h)
    rw [splitNl, if_neg hc]
    cases hr : rest with
    | nil =>
      subst hr
      rfl
    | cons d ds =>
      rw [← hr, ih hnr (by simp [hr])]

theorem splitNl_append_newline (l : List Char) (hn : '\n' ∉ l) :
    splitNl (l ++ ['\n']) = [l] := by
  induction l with
  | nil => rfl
  | cons c rest ih =>
    have hc : c ≠ '\n' := fun h => hn (h ▸ List.mem_cons_self c rest)
    have hnr : '\n' ∉ rest := fun h => hn (List.mem_cons_of_mem c h)
    show splitNl (c :: (rest ++ ['\n'])) = _
    rw [splitNl, if_neg hc, ih hnr]

/-- C4: a logical line split across two reads/chunks, with timestamps
enabled. The local tailing path threads the persistent carry, so the two
poll reads `frag` and `tail ++ "\n"` print as one single timestamped
line `frag ++ tail`; the remote streaming path annotates each chunk
independently, so the same two chunks print as two separately
timestamped lines — the trailing fragment `frag` of the first chunk is
printed immediately rather than carried. -/
theorem c4_carry_inconsistency (frag tail : List Char)
    (h1 : frag ≠ []) (hn1 : '\n' ∉ frag) (hr1 : '\r' ∉ frag)
    (hn2 : '\n' ∉ tail) (hr2 : '\r' ∉ tail) :
    (tailAnnotateRun [] [frag, tail ++ ['\n']]).1 = [frag ++ tail] ∧
      printChunk true frag ++ printChunk true (tail ++ ['\n'])
        = [frag ++ ['\n'], tail ++ ['\n']] := by
  have hnft : '\n' ∉ frag ++ tail := by
    intro h
    rcases List.mem_append.mp h with h | h
    exacts [hn1 h, hn2 h]
  have hrftn : '\r' ∉ (frag ++ tail) ++ ['\n'] := by
    intro h
    rcases List.mem_append.mp h with h | h
    · rcases List.mem_append.mp h with h | h
      exacts [hr1 h, hr2 h]
    · simp at h
  have hrtn : '\r' ∉ tail ++ ['\n'] := by
    intro h
    rcases List.mem_append.mp h with h | h
    · exact hr2 h
    · simp at h
  have hs1 : tailAnnotateStep [] frag = ([], frag) := by
    rw [tailAnnotateStep, if_neg h1]
    have hlast : (([] : List Char) ++ frag).getLast? ≠ some '\n' := by
      rw [List.nil_append]
      exact fun h => hn1 (List.mem_of_getLast?_eq_some h)
    have hls : rustLines ([] ++ frag) = [frag] := by
      rw [List.nil_append, rustLines_eq_splitNl _ hr1, splitNl_no_newline _ hn1 h1]
    rw [if_pos ⟨hlast, by rw [hls]; simp⟩, hls]
    simp
  have hs2 : tailAnnotateStep frag (tail ++ ['\n']) = ([frag ++ tail], []) := by
    have hch : tail ++ ['\n'] ≠ [] := by simp
    rw [tailAnnotateStep, if_neg hch]
    have hassoc : frag ++ (tail ++ ['\n']) = (frag ++ tail) ++ ['\n'] := by simp
    have hlast : (frag ++ (tail ++ ['\n'])).getLast? = some '\n' := by
      rw [hassoc]
      exact List.getLast?_concat _
    have hls : rustLines (frag ++ (tail ++ ['\n'])) = [frag ++ tail] := by
      rw [hassoc, rustLines_eq_splitNl _ hrftn, splitNl_append_newline _ hnft]
    rw [if_neg (by simp [hlast]), hls]
  refine ⟨?_, ?_⟩
  · show ((tailAnnotateStep [] frag).1 ++
      ((tailAnnotateStep (tailAnnotateStep [] frag).2 (tail ++ ['\n'])).1 ++
        (tailAnnotateRun (tailAnnotateStep (tailAnnotateStep [] frag).2
          (tail ++ ['\n'])).2 []).1)) = _
    rw [hs1]
    simp [tailAnnotateRun, hs2]
  · have hpc1 : printChunk true frag = [frag ++ ['\n']] := by
      rw [printChunk, if_pos rfl, rustLines_eq_splitNl _ hr1,
        splitNl_no_newline _ hn1 h1]
      rfl
    have hpc2 : printChunk true (tail ++ ['\n']) = [tail ++ ['\n']] := by
      rw [printChunk, if_pos rfl, rustLines_eq_splitNl _ hrtn,
        splitNl_append_newline _ hn2]
      rfl
    rw [hpc1, hpc2]
    rfl

/-- C4 (witness): the line "pq" delivered as "p" then "q\n". -/
theorem c4_witness :
    (tailAnnotateRun [] [['p'], ['q', '\n']]).1 = [['p', 'q']] ∧
      printChunk true ['p'] ++ printChunk true (['q'] ++ ['\n'])
        = [['p', '\n'], ['q', '\n']] :=
  c4_carry_inconsistency ['p'] ['q'] (by decide) (by decide) (by decide)
    (by decide) (by decide)

/-!
## C5: task auto-selection for local follow
-/

/-- Every element of a separator-join occurs verbatim inside it. -/
theorem joinSep_mem (sep : List Char) (l : List (List Char)) (x : List Char)
    (hx : x ∈ l) : ∃ pre post, joinSep sep l = pre ++ x ++ post := by
  induction l with
  | nil => exact absurd hx (List.not_mem_nil x)
  | cons a rest ih =>
    cases hr : rest with
    | nil =>
      subst hr
      have : x = a := by simpa using hx
      exact ⟨[], [], by simp [joinSep, this]⟩
    | cons b bs =>
      subst hr
      rcases List.mem_cons.mp hx with h | h
      · subst h
        exact ⟨[], sep ++ joinSep sep (b :: bs), by rw [joinSep]; simp⟩
      · obtain ⟨pre, post, hpp⟩ := ih h
        exact ⟨a ++ sep ++ pre, post, by rw [joinSep, hpp]; simp⟩

/-- C5: resolving the task to follow when none was supplied. Zero
running tasks is the fatal "no running tasks" error; exactly one
candidate is auto-selected; several candidates is a fatal error whose
message carries each candidate id (rendered in the comma-joined list
after the fixed text). -/
theorem c5_auto_selection (tasks : List (Nat × Bool)) :
    (runningIdsOf tasks = [] → localFollowResolve none tasks = .error msgNoRunning) ∧
      (∀ id, runningIdsOf tasks = [id] → localFollowResolve none tasks = .ok id) ∧
      (2 ≤ (runningIdsOf tasks).length →
        localFollowResolve none tasks =
          .error (msgMultiple ++
            joinSep sepComma ((runningIdsOf tasks).map natChars)) ∧
        ∀ id ∈ runningIdsOf tasks, ∃ pre post,
          joinSep sepComma ((runningIdsOf tasks).map natChars)
            = pre ++ natChars id ++ post) := by
  have hrw : localFollowResolve none tasks =
      (match runningIdsOf tasks with
        | [] => .error msgNoRunning
        | [id] => .ok id
        | _ => .error (msgMultiple ++
            joinSep sepComma ((runningIdsOf tasks).map natChars))) := rfl
  refine ⟨?_, ?_, ?_⟩
  · intro h
    rw [hrw, h]
  · intro id h
    rw [hrw, h]
  · intro h
    cases hids : runningIdsOf tasks with
    | nil => rw [hids] at h; simp at h
    | cons a rest =>
      cases hr : rest with
      | nil => rw [hids, hr] at h; simp at h
      | cons b bs =>
        subst hr
        refine ⟨by rw [hrw, hids], ?_⟩
        intro id hid
        exact joinSep_mem _ _ _ (List.mem_map_of_mem natChars hid)

/-- C5 (witness): zero, one, and two running tasks. -/
theorem c5_witness :
    localFollowResolve none [(4, false)] = .error msgNoRunning ∧
      localFollowResolve none [(4, false), (7, true)] = .ok 7 ∧
      (localFollowResolve none [(3, true), (5, true)] =
          .error (msgMultiple ++
            joinSep sepComma ((runningIdsOf [(3, true), (5, true)]).map natChars)) ∧
        ∀ id ∈ runningIdsOf [(3, true), (5, true)], ∃ pre post,
          joinSep sepComma ((runningIdsOf [(3, true), (5, true)]).map natChars)
            = pre ++ natChars id ++ post) :=
  ⟨(c5_auto_selection [(4, false)]).1 (by decide),
    (c5_auto_selection [(4, false), (7, true)]).2.1 7 (by decide),
    (c5_auto_selection [(3, true), (5, true)]).2.2 (by decide)⟩

/-!
## C6: decompression resilience
-/

/-- C6: for `get_remote_log`, an absent payload yields empty output and
no error; an empty payload (for any decoder that decodes the empty frame
stream to the empty string, as the snap frame decoder does) also yields
empty output; any decode failure yields the fixed, non-empty,
human-readable placeholder in place of the log body — the function
returns the string rather than propagating an error, so the command is
never aborted. -/
theorem c6_decompression_resilience
    (decode : List Nat → Except (List Char) (List Char))
    (ts : Nat → List Char) (timestamps : Bool) :
    getRemoteLog decode ts none timestamps = [] ∧
      (decode [] = .ok [] → getRemoteLog decode ts (some []) timestamps = []) ∧
      (∀ bytes e, decode bytes = .error e →
        getRemoteLog decode ts (some bytes) timestamps = msgDecompressFailed ++ e ∧
          getRemoteLog decode ts (some bytes) timestamps ≠ []) := by
  refine ⟨rfl, ?_, ?_⟩
  · intro h
    rw [getRemoteLog, h]
    cases timestamps with
    | false => rfl
    | true => rfl
  · intro bytes e h
    have hres : getRemoteLog decode ts (some bytes) timestamps
        = msgDecompressFailed ++ e := by
      rw [getRemoteLog, h]
    refine ⟨hres, ?_⟩
    rw [hres]
    intro hnil
    have := (List.append_eq_nil.mp hnil).1
    revert this
    decide

/-- C6 (witness): a decoder that accepts only the empty payload. -/
theorem c6_witness :
    getRemoteLog (fun b => if b = [] then .ok [] else .error ['b', 'a', 'd'])
        (fun _ => []) none false = [] ∧
      getRemoteLog (fun b => if b = [] then .ok [] else .error ['b', 'a', 'd'])
        (fun _ => []) (some []) false = [] ∧
      (getRemoteLog (fun b => if b = [] then .ok [] else .error ['b', 'a', 'd'])
          (fun _ => []) (some [7]) false = msgDecompressFailed ++ ['b', 'a', 'd'] ∧
        getRemoteLog (fun b => if b = [] then .ok [] else .error ['b', 'a', 'd'])
          (fun _ => []) (some [7]) false ≠ []) :=
  ⟨(c6_decompression_resilience _ _ false).1,
    (c6_decompression_resilience _ _ false).2.1 rfl,
    (c6_decompression_resilience _ _ false).2.2 [7] ['b', 'a', 'd'] rfl⟩

/-!
## C7: effective window determination
-/

/-- C7: `determine_log_line_amount` forces an unbounded window (`none`)
whenever `full` is set, returns an explicit line count verbatim, and
otherwise defaults to a 15-line window (the list/JSON rendering path);
the follow path applies no default: with no line count the whole content
streams from the start (unbounded), and with one the initial seek to the
last `n` lines is applied exactly once. -/
theorem c7_window_determination (l : Option Nat) (n : Nat) (c : List Char) :
    determineLogLineAmount true l = none ∧
      determineLogLineAmount false (some n) = some n ∧
      determineLogLineAmount false none = some 15 ∧
      followLocalSetup none c = c ∧
      followLocalSetup (some n) c = (seekToLastLines c n).2 :=
  ⟨rfl, rfl, rfl, rfl, rfl⟩

/-!
## C9: JSON rendering strips per-task environment data
-/

/-- Members of a `btreeInsert` result are the new pair or old members. -/
theorem btreeInsert_mem {α : Type} (k : Nat) (v : α) (l : List (Nat × α))
    (p : Nat × α) (hp : p ∈ btreeInsert k v l) : p = (k, v) ∨ p ∈ l := by
  induction l with
  | nil => simpa [btreeInsert] using hp
  | cons q rest ih =>
    rw [btreeInsert] at hp
    by_cases h1 : k < q.1
    · rw [if_pos h1] at hp
      rcases List.mem_cons.mp hp with h | h
      · exact Or.inl h
      · exact Or.inr h
    · rw [if_neg h1] at hp
      by_cases h2 : k = q.1
      · rw [if_pos h2] at hp
        rcases List.mem_cons.mp hp with h | h
        · exact Or.inl h
        · exact Or.inr (List.mem_cons_of_mem q h)
      · rw [if_neg h2] at hp
        rcases List.mem_cons.mp hp with h | h
        · exact Or.inr (h ▸ List.mem_cons_self q rest)
        · rcases ih h with h | h
          · exact Or.inl h
          · exact Or.inr (List.mem_cons_of_mem q h)

theorem printLogJsonGo_envs (tasks : List (Nat × Task)) :
    ∀ (tl : List (Nat × List Char)) (acc json : List (Nat × TaskLog)),
      (∀ p ∈ acc, p.2.task.envs = []) →
      printLogJsonGo tasks tl acc = some json →
      ∀ p ∈ json, p.2.task.envs = [] := by
  induction tasks with
  | nil =>
    intro tl acc json hacc h
    rw [printLogJsonGo] at h
    cases h
    exact hacc
  | cons q rest ih =>
    intro tl acc json hacc h
    obtain ⟨id, task⟩ := q
    rw [printLogJsonGo] at h
    cases hre : removeEntry id tl with
    | none => rw [hre] at h; cases h
    | some pr =>
      rw [hre] at h
      refine ih pr.2 _ json ?_ h
      intro p hp
      rcases btreeInsert_mem _ _ _ p hp with hcase | hcase
      · rw [hcase]
      · exact hacc p hcase

/-- C9: every entry of the JSON mapping assembled by `print_log_json`
carries an empty environment-variable map, whatever environment data the
task snapshots held. -/
theorem c9_json_strips_envs (logFor : Nat → TaskLogResponse → List Char)
    (input : List (Nat × TaskLogResponse)) (json : List (Nat × TaskLog))
    (h : printLogJson logFor input = some json) :
    ∀ p ∈ json, p.2.task.envs = [] := by
  refine printLogJsonGo_envs _ _ [] json ?_ h
  intro p hp
  exact absurd hp (List.not_mem_nil p)

/-- C9 (witness): one task whose snapshot has a non-empty environment
comes out of the JSON assembly with an empty one. -/
theorem c9_witness :
    ((0, TaskLog.mk ⟨0, ['c'], []⟩ []) : Nat × TaskLog).2.task.envs
      = ([] : List (List Char × List Char)) :=
  c9_json_strips_envs (fun _ _ => [])
    [(0, ⟨⟨0, ['c'], [(['K'], ['V'])]⟩, none, true⟩)]
    [(0, TaskLog.mk ⟨0, ['c'], []⟩ [])] (by decide)
    (0, TaskLog.mk ⟨0, ['c'], []⟩ []) (by decide)

/-!
## C10: an empty local log file prints nothing at all
-/

/-- C10: when the selected task's local log file has length zero (or its
metadata is unreadable), `print_local_file` prints nothing — no header,
no "(last N lines)" hint, no output — for every window and timestamps
setting; conversely, with readable metadata, non-empty content and a
successful seek, the first thing printed is the header line (with its
optional hint). -/
theorem c10_empty_file_silent
    (seek : List Char → Nat → Except (List Char) (Bool × List Char))
    (content : List Char) (metaOk : Bool) (lines : Option Nat)
    (header : List Char) (timestamps : Bool) (ts : Nat → List Char) :
    (content.length = 0 →
      printLocalFile seek content metaOk lines header timestamps ts = []) ∧
      (∀ (compl : Bool) (remaining : List Char), metaOk = true → content ≠ [] →
        (match lines with
          | some n => seek content n
          | none => (.ok (true, content) : Except (List Char) (Bool × List Char)))
          = .ok (compl, remaining) →
        ∃ info rest, printLocalFile seek content metaOk lines header timestamps ts
          = .err ('\n' :: header ++ info) :: rest) := by
  refine ⟨?_, ?_⟩
  · intro h
    cases metaOk with
    | false => simp [printLocalFile]
    | true => simp [printLocalFile, h]
  · intro compl remaining hm hc hseek
    subst hm
    simp only [printLocalFile]
    rw [if_neg (by decide), if_neg (by simpa using hc), hseek]
    exact ⟨_, _, rfl⟩

/-- C10 (witness): empty content prints nothing; content "z" prints the
header first. -/
theorem c10_witness :
    printLocalFile (fun c _ => .ok (true, c)) [] true none ['H'] false (fun _ => []) = [] ∧
      ∃ info rest,
        printLocalFile (fun c _ => .ok (true, c)) ['z'] true none ['H'] false (fun _ => [])
          = .err ('\n' :: ['H'] ++ info) :: rest :=
  ⟨(c10_empty_file_silent (fun c _ => .ok (true, c)) [] true none ['H'] false
      (fun _ => [])).1 rfl,
    (c10_empty_file_silent (fun c _ => .ok (true, c)) ['z'] true none ['H'] false
      (fun _ => [])).2 true ['z'] rfl (by decide) rfl⟩

end Pueue
